import Mathlib

/-!
Verification of the docstring parser in `skydoc/common.py`.

Lines and strings are modelled as `List Char`.  Python's `str.strip` /
`str.lstrip` and the regex class `\s` act, on the ASCII inputs this parser
is used with, on the whitespace set modelled by `isPySpace`.  Python
`dict`s are modelled as insertion-ordered association lists (`Dict`), with
assignment `d[k] = v` modelled by `dictInsert` (update in place keeping the
key's first position, otherwise append).
-/

namespace Skydoc

/-- A line (or string) of text, modelled as a list of characters. -/
abbrev Line := List Char

/-- Whitespace as recognized by Python's `str.strip`/`str.lstrip` and the
regex class `\s` (ASCII fragment). -/
def isPySpace (c : Char) : Bool :=
  c == ' ' || c == '\t' || c == '\n' || c == '\r' || c == '\x0B' || c == '\x0C'

/-- Python `line.lstrip()`. -/
def lstripL (s : Line) : Line := s.dropWhile isPySpace

/-- Python `line.rstrip()`. -/
def rstripL (s : Line) : Line := (s.reverse.dropWhile isPySpace).reverse

/-- Python `line.strip()`. -/
def stripL (s : Line) : Line := rstripL (lstripL s)

/-- Function `leading_whitespace` of common.py (line 123):
`len(line) - len(line.lstrip())`. -/
def leading_whitespace (line : Line) : Nat := line.length - (lstripL line).length

/-- One character under `xml.sax.saxutils.escape` (imported at common.py
line 20): `&`, `<` and `>` are replaced by entities, every other character
(quotes included) is kept.  The sequential `str.replace` calls of the
library function are equivalent to this character-wise map because the
replacement of `&` happens first and the entity strings contain no `<`
or `>`. -/
def escapeChar (c : Char) : Line :=
  if c == '&' then "&amp;".toList
  else if c == '<' then "&lt;".toList
  else if c == '>' then "&gt;".toList
  else [c]

/-- `xml.sax.saxutils.escape` on a whole string. -/
def pyEscape (s : Line) : Line := (s.map escapeChar).flatten

/-- Characters matched by the identifier class of the field regex at
common.py line 155: `[`\{\}\%\.\w]` (word characters plus backtick,
braces, percent, dot). -/
def isAttrChar (c : Char) : Bool :=
  c.isAlphanum || c == '_' || c == '\u0060' || c == '\x7B' || c == '\x7D' ||
    c == '%' || c == '.'

/-- Step `-?\s*` of the field regex: an optional bullet dash followed by
optional whitespace.  Applied after the leading `\s*` has been consumed. -/
def afterBullet (s : Line) : Line :=
  match s with
  | c :: r => if c = '-' then r.dropWhile isPySpace else c :: r
  | [] => []

/-- Match of the field regex `^\s*-?\s*([`\{\}\%\.\w]+):\s*(.*)` at
common.py line 155, returning (group 1, group 2) on success.  Greedy
matching with backtracking reduces to this deterministic scan because the
identifier class contains no whitespace, no dash and no colon. -/
def matchField (line : Line) : Option (Line × Line) :=
  let s2 := afterBullet (line.dropWhile isPySpace)
  let name := s2.takeWhile isAttrChar
  match s2.dropWhile isAttrChar with
  | c :: r => if name ≠ [] ∧ c = ':' then some (name, r.dropWhile isPySpace) else none
  | [] => none

/-- An insertion-ordered string-to-string mapping (Python `dict`). -/
abbrev Dict := List (Line × Line)

/-- Python `d[k] = v`: if the key is present its value is updated in
place (the key keeps its position), otherwise the pair is appended. -/
def dictInsert (m : Dict) (k v : Line) : Dict :=
  if m.any (fun p => p.1 = k) then
    m.map (fun p => if p.1 = k then (k, v) else p)
  else m ++ [(k, v)]

/-- Keys of a `Dict`, in order. -/
def dictKeys (m : Dict) : List Line := m.map (fun p => p.1)

/-- Python `d.get(k)`: the value at the first occurrence of the key. -/
def dictGet (m : Dict) (k : Line) : Option Line :=
  match m.find? (fun p => p.1 = k) with
  | some p => some p.2
  | none => none

/-- Map a function over the values of a `Dict`. -/
def mapVals (f : Line → Line) (m : Dict) : Dict :=
  m.map (fun p => (p.1, f p.2))

/-- Stop condition of the loops at common.py lines 151 and 188: a
non-blank line whose leading whitespace equals the heading's. -/
def stopsSection (hws : Nat) (line : Line) : Bool :=
  !(stripL line).isEmpty && leading_whitespace line == hws

/-- Finalization of the still-open field when `_parse_attribute_docs`
stops (common.py lines 165-166): `attr_docs[attr] = escape(desc).strip()`. -/
def finishAttr (docs : Dict) (attr : Option Line) (desc : Line) : Dict :=
  match attr with
  | some a => dictInsert docs a (stripL (pyEscape desc))
  | none => docs

/-- The while loop of `_parse_attribute_docs` (common.py lines 147-168),
running over the lines after the heading.  Returns the updated dict and
the number of lines consumed (the stopping line is not consumed). -/
def parseAttrLoop (hws : Nat) (docs : Dict) (attr : Option Line) (desc : Line) :
    List Line → Dict × Nat
  | [] => (finishAttr docs attr desc, 0)
  | line :: rest =>
    if stopsSection hws line then (finishAttr docs attr desc, 0)
    else
      match matchField line with
      | some (name, d) =>
        let docs' := match attr with
          | some a => dictInsert docs a (pyEscape desc)
          | none => docs
        let r := parseAttrLoop hws docs' (some name) d rest
        (r.1, r.2 + 1)
      | none =>
        match attr with
        | some a =>
          let r := parseAttrLoop hws docs (some a) (desc ++ '\n' :: stripL line) rest
          (r.1, r.2 + 1)
        | none =>
          let r := parseAttrLoop hws docs none desc rest
          (r.1, r.2 + 1)

/-- Function `_parse_attribute_docs(attr_docs, lines, index)` of common.py
(lines 128-168).  Returns the updated dict together with the returned
resume index. -/
def parse_attribute_docs (attr_docs : Dict) (lines : List Line) (index : Nat) :
    Dict × Nat :=
  let hws := leading_whitespace (lines.getD index [])
  let r := parseAttrLoop hws attr_docs none [] (lines.drop (index + 1))
  (r.1, index + 1 + r.2)

/-- The while loop of `_parse_example_docs` (common.py lines 186-191).
Returns the collected lines and the number of lines consumed. -/
def parseExLoop (hws : Nat) : List Line → List Line × Nat
  | [] => ([], 0)
  | line :: rest =>
    if stopsSection hws line then ([], 0)
    else
      let r := parseExLoop hws rest
      (line :: r.1, r.2 + 1)

/-- Function `_parse_example_docs(examples, lines, index)` of common.py
(lines 171-193).  Returns the extended examples list and the resume
index. -/
def parse_example_docs (examples : List Line) (lines : List Line) (index : Nat) :
    List Line × Nat :=
  let hws := leading_whitespace (lines.getD index [])
  let r := parseExLoop hws (lines.drop (index + 1))
  (examples ++ r.1, index + 1 + r.2)

/-- Characters of the regex class `[ \t]` used by `textwrap.dedent`. -/
def isIndentChar (c : Char) : Bool := c == ' ' || c == '\t'

/-- First step of `textwrap.dedent`: `_whitespace_only_re.sub('', text)`
turns every line made only of spaces/tabs (at least one) into an empty
line. -/
def blankWsOnly (ls : List Line) : List Line :=
  ls.map (fun l => if !l.isEmpty && l.all isIndentChar then [] else l)

/-- Longest common prefix of two character lists. -/
def lcp : Line → Line → Line
  | x :: xs, y :: ys => if x = y then x :: lcp xs ys else []
  | _, _ => []

/-- One step of `textwrap.dedent`'s margin computation, with CPython's
branch structure: the two `startswith` tests, and otherwise truncation of
the margin at the first mismatching character. -/
def marginStep (margin indent : Line) : Line :=
  if margin.isPrefixOf indent then margin
  else if indent.isPrefixOf margin then indent
  else lcp margin indent

/-- Margin of `textwrap.dedent`: fold of `marginStep` over the leading
space/tab runs of the lines that contain a character other than space or
tab (`_leading_whitespace_re`).  `none` when no line does. -/
def dedentMargin (ls : List Line) : Option Line :=
  match (ls.filter (fun l => l.any (fun c => !isIndentChar c))).map
      (fun l => l.takeWhile isIndentChar) with
  | [] => none
  | i :: rest => some (rest.foldl marginStep i)

/-- `textwrap.dedent`, applied linewise.  The library function acts on the
newline-joined text with per-line (MULTILINE) regexes and a margin that
contains no newline, so splitting, dedenting each line and rejoining is
equivalent. -/
def pyDedent (ls : List Line) : List Line :=
  let bs := blankWsOnly ls
  match dedentMargin bs with
  | none => bs
  | some [] => bs
  | some m => bs.map (fun l => if m.isPrefixOf l then l.drop m.length else l)

/-- Python `doc.split("\n")`. -/
def splitLines : Line → List Line
  | [] => [[]]
  | c :: cs =>
    if c = '\n' then [] :: splitLines cs
    else
      match splitLines cs with
      | l :: ls => (c :: l) :: ls
      | [] => [[c]]

/-- Python `"\n".join(lines)`. -/
def joinLines : List Line → Line
  | [] => []
  | [l] => l
  | l :: ls => l ++ '\n' :: joinLines ls

/-- The record returned by `parse_docstring` (class `ExtractedDocs` of
common.py, lines 113-120). -/
structure ExtractedDocs where
  doc : Line
  attr_docs : Dict
  example_doc : Line
  output_docs : Dict
deriving DecidableEq

/-- Heading constant at common.py line 23. -/
def ARGS_HEADING : Line := "Args:".toList

/-- Heading constant at common.py line 24. -/
def EXAMPLES_HEADING : Line := "Examples:".toList

/-- Heading constant at common.py line 25. -/
def EXAMPLE_HEADING : Line := "Example:".toList

/-- Heading constant at common.py line 26. -/
def OUTPUTS_HEADING : Line := "Outputs:".toList

/-- The while loop of `parse_docstring` (common.py lines 215-228).  The
`fuel` argument only makes the recursion structural: each step consumes at
least one line, so any `fuel` at least the number of lines is enough and
the zero-fuel equation is never reached from `parse_docstring`. -/
def parseDocLoop (attr output : Dict) (examples docs : List Line) :
    Nat → List Line → Dict × Dict × List Line × List Line
  | _, [] => (attr, output, examples, docs)
  | 0, _ :: _ => (attr, output, examples, docs)
  | fuel + 1, line :: rest =>
    if stripL line = ARGS_HEADING then
      let r := parseAttrLoop (leading_whitespace line) attr none [] rest
      parseDocLoop r.1 output examples docs fuel (rest.drop r.2)
    else if stripL line = EXAMPLES_HEADING ∨ stripL line = EXAMPLE_HEADING then
      let r := parseExLoop (leading_whitespace line) rest
      parseDocLoop attr output (examples ++ r.1) docs fuel (rest.drop r.2)
    else if stripL line = OUTPUTS_HEADING then
      let r := parseAttrLoop (leading_whitespace line) output none [] rest
      parseDocLoop attr r.1 examples docs fuel (rest.drop r.2)
    else
      parseDocLoop attr output examples (docs ++ [line]) fuel rest

/-- Function `parse_docstring(doc)` of common.py (lines 196-232). -/
def parse_docstring (doc : Line) : ExtractedDocs :=
  let lines := splitLines doc
  let r := parseDocLoop [] [] [] [] lines.length lines
  { doc := stripL (joinLines r.2.2.2)
    attr_docs := r.1
    example_doc := stripL (joinLines (pyDedent r.2.2.1))
    output_docs := r.2.1 }

/-- Escaping as claim C1 describes it: quote characters are replaced by
entities as well.  Used only to compare the claim against the code. -/
def claimEscapeChar (c : Char) : Line :=
  if c == '&' then "&amp;".toList
  else if c == '<' then "&lt;".toList
  else if c == '>' then "&gt;".toList
  else if c == '"' then "&quot;".toList
  else if c == '\u0027' then "&apos;".toList
  else [c]

/-- Escaping of a whole string as claim C1 describes it. -/
def claimEscape (s : Line) : Line := (s.map claimEscapeChar).flatten

/-- Dedent as claim C7 describes it: remove from every line the longest
whitespace prefix common to all non-empty lines.  Used only to compare the
claim against the code's `textwrap.dedent`. -/
def claimDedent (ls : List Line) : List Line :=
  match (ls.filter (fun l => !l.isEmpty)).map (fun l => l.takeWhile isIndentChar) with
  | [] => ls
  | i :: rest =>
    let m := rest.foldl lcp i
    ls.map (fun l => if m.isPrefixOf l then l.drop m.length else l)

/-- Dedent as amended claim C7 describes it: whitespace-only lines are
first emptied; the margin is the longest common space/tab prefix of the
lines containing some other character; a non-empty margin is removed from
every line that starts with it. -/
def amendedDedent (ls : List Line) : List Line :=
  let bs := blankWsOnly ls
  match (bs.filter (fun l => !l.isEmpty)).map (fun l => l.takeWhile isIndentChar) with
  | [] => bs
  | i :: rest =>
    let m := rest.foldl lcp i
    if m.isEmpty then bs
    else bs.map (fun l => if m.isPrefixOf l then l.drop m.length else l)

/-- The attribute-section loop with the escaping step removed: it
accumulates and stores the raw descriptions.  Stated from the spec's words
("its raw accumulated description") to say what the stored values are the
escape of. -/
def rawAttrLoop (hws : Nat) (docs : Dict) (attr : Option Line) (desc : Line) :
    List Line → Dict × Nat
  | [] =>
    (match attr with
     | some a => dictInsert docs a (stripL desc)
     | none => docs, 0)
  | line :: rest =>
    if stopsSection hws line then
      (match attr with
       | some a => dictInsert docs a (stripL desc)
       | none => docs, 0)
    else
      match matchField line with
      | some (name, d) =>
        let docs' := match attr with
          | some a => dictInsert docs a desc
          | none => docs
        let r := rawAttrLoop hws docs' (some name) d rest
        (r.1, r.2 + 1)
      | none =>
        match attr with
        | some a =>
          let r := rawAttrLoop hws docs (some a) (desc ++ '\n' :: stripL line) rest
          (r.1, r.2 + 1)
        | none =>
          let r := rawAttrLoop hws docs none desc rest
          (r.1, r.2 + 1)

/-- Fold of Python dict assignments over a list of key/value pairs. -/
def dictFold (m : Dict) (us : List (Line × Line)) : Dict :=
  us.foldl (fun acc kv => dictInsert acc kv.1 kv.2) m

/-! ### Generic helper lemmas -/

theorem takeWhile_append_of_all (p : Char → Bool) :
    ∀ (xs : Line), xs.all p = true → ∀ (y : Char), p y = false → ∀ (ys : Line),
      ((xs ++ y :: ys).takeWhile p) = xs := by
  intro xs
  induction xs with
  | nil => intro _ y hy ys; simp [List.takeWhile_cons, hy]
  | cons a t ih =>
    intro h y hy ys
    simp only [List.all_cons, Bool.and_eq_true] at h
    simp [List.takeWhile_cons, h.1, ih h.2 y hy ys]

theorem dropWhile_append_of_all (p : Char → Bool) :
    ∀ (xs : Line), xs.all p = true → ∀ (y : Char), p y = false → ∀ (ys : Line),
      ((xs ++ y :: ys).dropWhile p) = y :: ys := by
  intro xs
  induction xs with
  | nil => intro _ y hy ys; simp [List.dropWhile_cons, hy]
  | cons a t ih =>
    intro h y hy ys
    simp only [List.all_cons, Bool.and_eq_true] at h
    simp [List.dropWhile_cons, h.1, ih h.2 y hy ys]

theorem lcp_of_prefix_left : ∀ {m i : Line}, m <+: i → lcp m i = m := by
  intro m
  induction m with
  | nil => intro i _; cases i <;> rfl
  | cons x xs ih =>
    intro i h
    rcases i with _ | ⟨y, ys⟩
    · exact absurd (List.IsPrefix.length_le h) (by simp)
    · rcases List.cons_prefix_cons.mp h with ⟨rfl, h2⟩
      simp [lcp, ih h2]

theorem lcp_of_prefix_right : ∀ {m i : Line}, i <+: m → lcp m i = i := by
  intro m
  induction m with
  | nil => intro i h; simpa [lcp] using (List.prefix_nil.mp h)
  | cons x xs ih =>
    intro i h
    rcases i with _ | ⟨y, ys⟩
    · simp [lcp]
    · rcases List.cons_prefix_cons.mp h with ⟨rfl, h2⟩
      simp [lcp, ih h2]

theorem marginStep_eq_lcp : marginStep = lcp := by
  funext m i
  unfold marginStep
  by_cases h1 : m.isPrefixOf i
  · simp only [h1, if_true]
    exact (lcp_of_prefix_left (List.isPrefixOf_iff_prefix.mp h1)).symm
  · by_cases h2 : i.isPrefixOf m
    · simp only [h1, h2, if_false, if_true]
      exact (lcp_of_prefix_right (List.isPrefixOf_iff_prefix.mp h2)).symm
    · simp [h1, h2]

theorem splitLines_ne_nil : ∀ s : Line, splitLines s ≠ [] := by
  intro s
  induction s with
  | nil => simp [splitLines]
  | cons c cs ih =>
    unfold splitLines
    by_cases hc : c = '\n'
    · simp [hc]
    · simp only [hc, if_false]
      rcases h : splitLines cs with _ | ⟨l, ls⟩
      · exact absurd h ih
      · simp

theorem joinLines_splitLines : ∀ s : Line, joinLines (splitLines s) = s := by
  intro s
  induction s with
  | nil => rfl
  | cons c cs ih =>
    unfold splitLines
    by_cases hc : c = '\n'
    · subst hc
      simp only [if_pos rfl]
      rcases h : splitLines cs with _ | ⟨l, ls⟩
      · exact absurd h (splitLines_ne_nil cs)
      · rw [h] at ih
        show [] ++ '\n' :: joinLines (l :: ls) = '\n' :: cs
        simp [ih]
    · simp only [hc, if_false]
      rcases h : splitLines cs with _ | ⟨l, ls⟩
      · exact absurd h (splitLines_ne_nil cs)
      · rw [h] at ih
        rcases ls with _ | ⟨l2, t⟩
        · show c :: l = c :: cs
          rw [show l = cs from ih]
        · show (c :: l) ++ '\n' :: joinLines (l2 :: t) = c :: cs
          rw [← ih]
          rfl

/-! ### Dict lemmas -/

theorem mem_dictKeys_iff_any {m : Dict} {k : Line} :
    k ∈ dictKeys m ↔ m.any (fun p => p.1 = k) = true := by
  simp only [dictKeys, List.mem_map, List.any_eq_true, decide_eq_true_eq]

theorem dictKeys_insert_of_not_mem {m : Dict} {k : Line} (v : Line)
    (h : k ∉ dictKeys m) : dictKeys (dictInsert m k v) = dictKeys m ++ [k] := by
  have ha : m.any (fun p => p.1 = k) = false := by
    rcases h2 : m.any (fun p => p.1 = k) with _ | _
    · rfl
    · exact absurd (mem_dictKeys_iff_any.mpr h2) h
  simp [dictInsert, ha, dictKeys]

theorem dictKeys_insert_of_mem {m : Dict} {k : Line} (v : Line)
    (h : k ∈ dictKeys m) : dictKeys (dictInsert m k v) = dictKeys m := by
  have ha := mem_dictKeys_iff_any.mp h
  simp only [dictInsert, ha, if_true, dictKeys, List.map_map]
  apply List.map_congr_left
  intro p _
  by_cases hp : p.1 = k
  · simp [hp]
  · simp [hp]

theorem mem_dictKeys_insert {m : Dict} {k k' v : Line}
    (h : k ∈ dictKeys (dictInsert m k' v)) : k ∈ dictKeys m ∨ k = k' := by
  by_cases hm : k' ∈ dictKeys m
  · rw [dictKeys_insert_of_mem v hm] at h
    exact Or.inl h
  · rw [dictKeys_insert_of_not_mem v hm] at h
    rcases List.mem_append.mp h with h | h
    · exact Or.inl h
    · exact Or.inr (by simpa using h)

theorem dictGet_insert_self : ∀ (m : Dict) (k v : Line),
    dictGet (dictInsert m k v) k = some v := by
  intro m
  induction m with
  | nil => intro k v; simp [dictInsert, dictGet, List.find?]
  | cons p t ih =>
    intro k v
    by_cases h : p.1 = k
    · have : dictInsert (p :: t) k v =
          (k, v) :: (t.map (fun q => if q.1 = k then (k, v) else q)) := by
        simp [dictInsert, List.any_cons, h]
      rw [this]
      simp [dictGet, List.find?]
    · have hany : (p :: t).any (fun q => q.1 = k) = t.any (fun q => q.1 = k) := by
        simp [List.any_cons, h]
      rcases ht : t.any (fun q => q.1 = k) with _ | _
      · have : dictInsert (p :: t) k v = p :: (t ++ [(k, v)]) := by
          simp [dictInsert, hany, ht]
        rw [this]
        have htt : dictInsert t k v = t ++ [(k, v)] := by simp [dictInsert, ht]
        have := ih k v
        rw [htt] at this
        simpa [dictGet, List.find?, h] using this
      · have : dictInsert (p :: t) k v =
            p :: (t.map (fun q => if q.1 = k then (k, v) else q)) := by
          simp [dictInsert, hany, ht, h]
        rw [this]
        have htt : dictInsert t k v = t.map (fun q => if q.1 = k then (k, v) else q) := by
          simp [dictInsert, ht]
        have := ih k v
        rw [htt] at this
        simpa [dictGet, List.find?, h] using this

theorem mapVals_dictInsert (f : Line → Line) (m : Dict) (k v : Line) :
    dictInsert (mapVals f m) k (f v) = mapVals f (dictInsert m k v) := by
  have hany : (mapVals f m).any (fun p => p.1 = k) = m.any (fun p => p.1 = k) := by
    simp [mapVals, List.any_map, Function.comp_def]
  unfold dictInsert
  rw [hany]
  by_cases h : m.any (fun p => p.1 = k) = true
  · simp only [h, if_true, mapVals, List.map_map]
    apply List.map_congr_left
    intro p _
    by_cases hp : p.1 = k
    · simp [Function.comp_def, hp]
    · simp [Function.comp_def, hp]
  · simp only [Bool.not_eq_true] at h
    simp [h, mapVals]

/-! ### Step lemmas for the section loops -/

theorem parseAttrLoop_cons_stop {hws : Nat} {line : Line} (docs : Dict)
    (attr : Option Line) (desc : Line) (rest : List Line)
    (h : stopsSection hws line = true) :
    parseAttrLoop hws docs attr desc (line :: rest) = (finishAttr docs attr desc, 0) := by
  simp [parseAttrLoop, h]

theorem parseAttrLoop_cons_match_some {hws : Nat} {line name d : Line} (docs : Dict)
    (a : Line) (desc : Line) (rest : List Line)
    (h : stopsSection hws line = false) (hm : matchField line = some (name, d)) :
    parseAttrLoop hws docs (some a) desc (line :: rest) =
      ((parseAttrLoop hws (dictInsert docs a (pyEscape desc)) (some name) d rest).1,
       (parseAttrLoop hws (dictInsert docs a (pyEscape desc)) (some name) d rest).2 + 1) := by
  simp [parseAttrLoop, h, hm]

theorem parseAttrLoop_cons_match_none {hws : Nat} {line name d : Line} (docs : Dict)
    (desc : Line) (rest : List Line)
    (h : stopsSection hws line = false) (hm : matchField line = some (name, d)) :
    parseAttrLoop hws docs none desc (line :: rest) =
      ((parseAttrLoop hws docs (some name) d rest).1,
       (parseAttrLoop hws docs (some name) d rest).2 + 1) := by
  simp [parseAttrLoop, h, hm]

theorem parseAttrLoop_cons_cont_some {hws : Nat} {line : Line} (docs : Dict)
    (a : Line) (desc : Line) (rest : List Line)
    (h : stopsSection hws line = false) (hm : matchField line = none) :
    parseAttrLoop hws docs (some a) desc (line :: rest) =
      ((parseAttrLoop hws docs (some a) (desc ++ '\n' :: stripL line) rest).1,
       (parseAttrLoop hws docs (some a) (desc ++ '\n' :: stripL line) rest).2 + 1) := by
  simp [parseAttrLoop, h, hm]

theorem parseAttrLoop_cons_cont_none {hws : Nat} {line : Line} (docs : Dict)
    (desc : Line) (rest : List Line)
    (h : stopsSection hws line = false) (hm : matchField line = none) :
    parseAttrLoop hws docs none desc (line :: rest) =
      ((parseAttrLoop hws docs none desc rest).1,
       (parseAttrLoop hws docs none desc rest).2 + 1) := by
  simp [parseAttrLoop, h, hm]

theorem stopsSection_of_blank {hws : Nat} {line : Line} (h : stripL line = []) :
    stopsSection hws line = false := by
  simp [stopsSection, h]

/-! ### Escape lemmas -/

theorem pyEscape_append (a b : Line) : pyEscape (a ++ b) = pyEscape a ++ pyEscape b := by
  simp [pyEscape]

theorem pyEscape_cons (c : Char) (s : Line) :
    pyEscape (c :: s) = escapeChar c ++ pyEscape s := by
  simp [pyEscape]

theorem escapeChar_of_space {c : Char} (h : isPySpace c = true) : escapeChar c = [c] := by
  simp only [isPySpace, Bool.or_eq_true, beq_iff_eq] at h
  rcases h with ((((rfl | rfl) | rfl) | rfl) | rfl) | rfl <;> rfl

theorem escapeChar_head_not_space {c : Char} (h : isPySpace c = false) :
    ∃ x t, escapeChar c = x :: t ∧ isPySpace x = false := by
  by_cases h1 : c = '&'
  · exact ⟨'&', "amp;".toList, by simp [escapeChar, h1], by decide⟩
  · by_cases h2 : c = '<'
    · exact ⟨'&', "lt;".toList, by simp [escapeChar, h1, h2], by decide⟩
    · by_cases h3 : c = '>'
      · exact ⟨'&', "gt;".toList, by simp [escapeChar, h1, h2, h3], by decide⟩
      · exact ⟨c, [], by simp [escapeChar, h1, h2, h3], h⟩

theorem lstripL_pyEscape (s : Line) : lstripL (pyEscape s) = pyEscape (lstripL s) := by
  induction s with
  | nil => rfl
  | cons c cs ih =>
    rw [pyEscape_cons]
    rcases hc : isPySpace c with _ | _
    · obtain ⟨x, t, he, hx⟩ := escapeChar_head_not_space hc
      rw [he]
      have l1 : lstripL (x :: (t ++ pyEscape cs)) = x :: (t ++ pyEscape cs) := by
        simp [lstripL, List.dropWhile_cons, hx]
      have l2 : lstripL (c :: cs) = c :: cs := by
        simp [lstripL, List.dropWhile_cons, hc]
      rw [List.cons_append, l1, l2, pyEscape_cons, he]
      rfl
    · rw [escapeChar_of_space hc]
      show lstripL (c :: pyEscape cs) = pyEscape (lstripL (c :: cs))
      simp only [lstripL, List.dropWhile_cons, hc, if_true]
      exact ih

theorem rstripL_append_not_space {x : Char} (s : Line) (h : isPySpace x = false) :
    rstripL (s ++ [x]) = s ++ [x] := by
  simp [rstripL, List.dropWhile_cons, h]

theorem rstripL_append_space {x : Char} (s : Line) (h : isPySpace x = true) :
    rstripL (s ++ [x]) = rstripL s := by
  simp [rstripL, List.dropWhile_cons, h]

theorem rstripL_pyEscape (s : Line) : rstripL (pyEscape s) = pyEscape (rstripL s) := by
  induction s using List.reverseRecOn with
  | nil => rfl
  | append_singleton xs x ih =>
    rw [pyEscape_append]
    rcases hx : isPySpace x with _ | _
    · rw [rstripL_append_not_space xs hx]
      rw [pyEscape_append]
      have hend : ∀ s0 : Line, rstripL (s0 ++ pyEscape [x]) = s0 ++ pyEscape [x] := by
        intro s0
        by_cases h1 : x = '&'
        · have : pyEscape [x] = "&amp".toList ++ [';'] := by simp [pyEscape, escapeChar, h1]
          rw [this, ← List.append_assoc]
          exact rstripL_append_not_space _ (by decide)
        · by_cases h2 : x = '<'
          · have : pyEscape [x] = "&lt".toList ++ [';'] := by
              simp [pyEscape, escapeChar, h1, h2]
            rw [this, ← List.append_assoc]
            exact rstripL_append_not_space _ (by decide)
          · by_cases h3 : x = '>'
            · have : pyEscape [x] = "&gt".toList ++ [';'] := by
                simp [pyEscape, escapeChar, h1, h2, h3]
              rw [this, ← List.append_assoc]
              exact rstripL_append_not_space _ (by decide)
            · have : pyEscape [x] = [x] := by simp [pyEscape, escapeChar, h1, h2, h3]
              rw [this]
              exact rstripL_append_not_space _ hx
      exact hend (pyEscape xs)
    · have hex : pyEscape [x] = [x] := by
        simp [pyEscape, escapeChar_of_space hx]
      rw [hex, rstripL_append_space _ hx, rstripL_append_space _ hx, ih]

theorem stripL_pyEscape (s : Line) : stripL (pyEscape s) = pyEscape (stripL s) := by
  unfold stripL
  rw [lstripL_pyEscape, rstripL_pyEscape]

theorem pyEscape_count_quote (s : Line) :
    (pyEscape s).count '"' = s.count '"' ∧
      (pyEscape s).count '\u0027' = s.count '\u0027' := by
  induction s with
  | nil => exact ⟨rfl, rfl⟩
  | cons c cs ih =>
    rw [pyEscape_cons]
    have h1 : (escapeChar c).count '"' = List.count '"' [c] := by
      by_cases h1 : c = '&'
      · subst h1; decide
      · by_cases h2 : c = '<'
        · subst h2; decide
        · by_cases h3 : c = '>'
          · subst h3; decide
          · simp [escapeChar, h1, h2, h3]
    have h2 : (escapeChar c).count '\u0027' = List.count '\u0027' [c] := by
      by_cases h1 : c = '&'
      · subst h1; decide
      · by_cases h2 : c = '<'
        · subst h2; decide
        · by_cases h3 : c = '>'
          · subst h3; decide
          · simp [escapeChar, h1, h2, h3]
    constructor
    · rw [List.count_append, h1, ih.1]
      simp [List.count_cons, Nat.add_comm]
    · rw [List.count_append, h2, ih.2]
      simp [List.count_cons, Nat.add_comm]

/-! ### Consumption counts of the section loops -/

theorem parseAttrLoop_consumed : ∀ (tail : List Line) (hws : Nat) (docs : Dict)
    (attr : Option Line) (desc : Line),
    (parseAttrLoop hws docs attr desc tail).2 = tail.findIdx (stopsSection hws) := by
  intro tail
  induction tail with
  | nil => intro hws docs attr desc; simp [parseAttrLoop, List.findIdx_nil]
  | cons line rest ih =>
    intro hws docs attr desc
    rw [List.findIdx_cons]
    rcases hs : stopsSection hws line with _ | _
    · simp only [cond_false]
      rcases hm : matchField line with _ | ⟨name, d⟩
      · rcases attr with _ | a
        · rw [parseAttrLoop_cons_cont_none docs desc rest hs hm]; simp [ih]
        · rw [parseAttrLoop_cons_cont_some docs a desc rest hs hm]; simp [ih]
      · rcases attr with _ | a
        · rw [parseAttrLoop_cons_match_none docs desc rest hs hm]; simp [ih]
        · rw [parseAttrLoop_cons_match_some docs a desc rest hs hm]; simp [ih]
    · rw [parseAttrLoop_cons_stop docs attr desc rest hs]; simp

theorem parseExLoop_consumed : ∀ (tail : List Line) (hws : Nat),
    (parseExLoop hws tail).2 = tail.findIdx (stopsSection hws) := by
  intro tail
  induction tail with
  | nil => intro hws; simp [parseExLoop, List.findIdx_nil]
  | cons line rest ih =>
    intro hws
    rw [List.findIdx_cons]
    rcases hs : stopsSection hws line with _ | _
    · simp [parseExLoop, hs, ih]
    · simp [parseExLoop, hs]

/-! ### Simulation between the escaped and the raw attribute loop -/

theorem parseAttrLoop_escape_sim : ∀ (tail : List Line) (hws : Nat) (m : Dict)
    (attr : Option Line) (desc : Line),
    (parseAttrLoop hws (mapVals pyEscape m) attr desc tail).1 =
      mapVals pyEscape ((rawAttrLoop hws m attr desc tail).1) := by
  intro tail
  induction tail with
  | nil =>
    intro hws m attr desc
    rcases attr with _ | a
    · rfl
    · show dictInsert (mapVals pyEscape m) a (stripL (pyEscape desc)) =
        mapVals pyEscape (dictInsert m a (stripL desc))
      rw [stripL_pyEscape, mapVals_dictInsert]
  | cons line rest ih =>
    intro hws m attr desc
    rcases hs : stopsSection hws line with _ | _
    · rcases hm : matchField line with _ | ⟨name, d⟩
      · rcases attr with _ | a
        · rw [parseAttrLoop_cons_cont_none _ desc rest hs hm]
          have : (rawAttrLoop hws m none desc (line :: rest)).1 =
              (rawAttrLoop hws m none desc rest).1 := by
            simp [rawAttrLoop, hs, hm]
          rw [this]
          exact ih hws m none desc
        · rw [parseAttrLoop_cons_cont_some _ a desc rest hs hm]
          have : (rawAttrLoop hws m (some a) desc (line :: rest)).1 =
              (rawAttrLoop hws m (some a) (desc ++ '\n' :: stripL line) rest).1 := by
            simp [rawAttrLoop, hs, hm]
          rw [this]
          exact ih hws m (some a) (desc ++ '\n' :: stripL line)
      · rcases attr with _ | a
        · rw [parseAttrLoop_cons_match_none _ desc rest hs hm]
          have : (rawAttrLoop hws m none desc (line :: rest)).1 =
              (rawAttrLoop hws m (some name) d rest).1 := by
            simp [rawAttrLoop, hs, hm]
          rw [this]
          exact ih hws m (some name) d
        · rw [parseAttrLoop_cons_match_some _ a desc rest hs hm]
          have hr : (rawAttrLoop hws m (some a) desc (line :: rest)).1 =
              (rawAttrLoop hws (dictInsert m a desc) (some name) d rest).1 := by
            simp [rawAttrLoop, hs, hm]
          rw [hr, mapVals_dictInsert]
          exact ih hws (dictInsert m a desc) (some name) d
    · rcases attr with _ | a
      · rw [parseAttrLoop_cons_stop _ none desc rest hs]
        have : (rawAttrLoop hws m none desc (line :: rest)).1 = m := by
          simp [rawAttrLoop, hs]
        rw [this]
        rfl
      · rw [parseAttrLoop_cons_stop _ (some a) desc rest hs]
        have : (rawAttrLoop hws m (some a) desc (line :: rest)).1 =
            dictInsert m a (stripL desc) := by
          simp [rawAttrLoop, hs]
        rw [this]
        show dictInsert (mapVals pyEscape m) a (stripL (pyEscape desc)) = _
        rw [stripL_pyEscape, mapVals_dictInsert]

/-! ### Key provenance for the attribute loop -/

theorem parseAttrLoop_keys : ∀ (tail : List Line) (hws : Nat) (docs : Dict)
    (attr : Option Line) (desc : Line) (k : Line),
    k ∈ dictKeys (parseAttrLoop hws docs attr desc tail).1 →
    k ∈ dictKeys docs ∨ attr = some k ∨ ∃ l ∈ tail, ∃ d, matchField l = some (k, d) := by
  intro tail
  induction tail with
  | nil =>
    intro hws docs attr desc k h
    rcases attr with _ | a
    · exact Or.inl h
    · simp only [parseAttrLoop, finishAttr] at h
      rcases mem_dictKeys_insert h with h | rfl
      · exact Or.inl h
      · exact Or.inr (Or.inl rfl)
  | cons line rest ih =>
    intro hws docs attr desc k h
    rcases hs : stopsSection hws line with _ | _
    · rcases hm : matchField line with _ | ⟨name, d⟩
      · rcases attr with _ | a
        · rw [parseAttrLoop_cons_cont_none docs desc rest hs hm] at h
          rcases ih hws docs none desc k h with h | h | ⟨l, hl, dd, hld⟩
          · exact Or.inl h
          · exact Or.inr (Or.inl h)
          · exact Or.inr (Or.inr ⟨l, List.mem_cons_of_mem _ hl, dd, hld⟩)
        · rw [parseAttrLoop_cons_cont_some docs a desc rest hs hm] at h
          rcases ih hws docs (some a) _ k h with h | h | ⟨l, hl, dd, hld⟩
          · exact Or.inl h
          · exact Or.inr (Or.inl h)
          · exact Or.inr (Or.inr ⟨l, List.mem_cons_of_mem _ hl, dd, hld⟩)
      · rcases attr with _ | a
        · rw [parseAttrLoop_cons_match_none docs desc rest hs hm] at h
          rcases ih hws docs (some name) d k h with h | h | ⟨l, hl, dd, hld⟩
          · exact Or.inl h
          · rcases Option.some.inj h with rfl
            exact Or.inr (Or.inr ⟨line, List.mem_cons_self _ _, d, hm⟩)
          · exact Or.inr (Or.inr ⟨l, List.mem_cons_of_mem _ hl, dd, hld⟩)
        · rw [parseAttrLoop_cons_match_some docs a desc rest hs hm] at h
          rcases ih hws _ (some name) d k h with h | h | ⟨l, hl, dd, hld⟩
          · rcases mem_dictKeys_insert h with h | rfl
            · exact Or.inl h
            · exact Or.inr (Or.inl rfl)
          · rcases Option.some.inj h with rfl
            exact Or.inr (Or.inr ⟨line, List.mem_cons_self _ _, d, hm⟩)
          · exact Or.inr (Or.inr ⟨l, List.mem_cons_of_mem _ hl, dd, hld⟩)
    · rw [parseAttrLoop_cons_stop docs attr desc rest hs] at h
      rcases attr with _ | a
      · exact Or.inl h
      · simp only [finishAttr] at h
        rcases mem_dictKeys_insert h with h | rfl
        · exact Or.inl h
        · exact Or.inr (Or.inl rfl)

/-! ### The attribute loop when no line matches the field pattern -/

theorem parseAttrLoop_no_match : ∀ (tail : List Line) (hws : Nat) (m : Dict),
    (∀ l ∈ tail, matchField l = none) → (parseAttrLoop hws m none [] tail).1 = m := by
  intro tail
  induction tail with
  | nil => intro hws m _; rfl
  | cons line rest ih =>
    intro hws m h
    have hline := h line (List.mem_cons_self line rest)
    rcases hs : stopsSection hws line with _ | _
    · rw [parseAttrLoop_cons_cont_none m [] rest hs hline]
      exact ih hws m (fun l hl => h l (List.mem_cons_of_mem _ hl))
    · rw [parseAttrLoop_cons_stop m none [] rest hs]; rfl

/-! ### Provenance of the dictionaries as folds of dict assignments -/

theorem dictFold_append (m : Dict) (a b : List (Line × Line)) :
    dictFold m (a ++ b) = dictFold (dictFold m a) b :=
  List.foldl_append ..

theorem parseAttrLoop_foldl : ∀ (tail : List Line) (hws : Nat) (docs : Dict)
    (attr : Option Line) (desc : Line),
    ∃ us, (parseAttrLoop hws docs attr desc tail).1 = dictFold docs us := by
  intro tail
  induction tail with
  | nil =>
    intro hws docs attr desc
    rcases attr with _ | a
    · exact ⟨[], rfl⟩
    · exact ⟨[(a, stripL (pyEscape desc))], rfl⟩
  | cons line rest ih =>
    intro hws docs attr desc
    rcases hs : stopsSection hws line with _ | _
    · rcases hm : matchField line with _ | ⟨name, d⟩
      · rcases attr with _ | a
        · obtain ⟨us, hu⟩ := ih hws docs none desc
          exact ⟨us, by rw [parseAttrLoop_cons_cont_none docs desc rest hs hm]; exact hu⟩
        · obtain ⟨us, hu⟩ := ih hws docs (some a) (desc ++ '\n' :: stripL line)
          exact ⟨us, by rw [parseAttrLoop_cons_cont_some docs a desc rest hs hm]; exact hu⟩
      · rcases attr with _ | a
        · obtain ⟨us, hu⟩ := ih hws docs (some name) d
          exact ⟨us, by rw [parseAttrLoop_cons_match_none docs desc rest hs hm]; exact hu⟩
        · obtain ⟨us, hu⟩ := ih hws (dictInsert docs a (pyEscape desc)) (some name) d
          refine ⟨(a, pyEscape desc) :: us, ?_⟩
          rw [parseAttrLoop_cons_match_some docs a desc rest hs hm]
          exact hu
    · rcases attr with _ | a
      · exact ⟨[], by rw [parseAttrLoop_cons_stop docs none desc rest hs]; rfl⟩
      · exact ⟨[(a, stripL (pyEscape desc))],
          by rw [parseAttrLoop_cons_stop docs (some a) desc rest hs]; rfl⟩

/-! ### Step lemmas for the outer scanning loop -/

theorem parseDocLoop_succ_args {line : Line} (attr output : Dict) (ex docs : List Line)
    (fuel : Nat) (rest : List Line) (h : stripL line = ARGS_HEADING) :
    parseDocLoop attr output ex docs (fuel + 1) (line :: rest) =
      parseDocLoop (parseAttrLoop (leading_whitespace line) attr none [] rest).1 output
        ex docs fuel (rest.drop (parseAttrLoop (leading_whitespace line) attr none [] rest).2) := by
  simp [parseDocLoop, h]

theorem parseDocLoop_succ_example {line : Line} (attr output : Dict) (ex docs : List Line)
    (fuel : Nat) (rest : List Line) (h1 : stripL line ≠ ARGS_HEADING)
    (h2 : stripL line = EXAMPLES_HEADING ∨ stripL line = EXAMPLE_HEADING) :
    parseDocLoop attr output ex docs (fuel + 1) (line :: rest) =
      parseDocLoop attr output (ex ++ (parseExLoop (leading_whitespace line) rest).1)
        docs fuel (rest.drop (parseExLoop (leading_whitespace line) rest).2) := by
  simp [parseDocLoop, h1, h2]

theorem parseDocLoop_succ_outputs {line : Line} (attr output : Dict) (ex docs : List Line)
    (fuel : Nat) (rest : List Line) (h1 : stripL line ≠ ARGS_HEADING)
    (h2 : stripL line ≠ EXAMPLES_HEADING) (h3 : stripL line ≠ EXAMPLE_HEADING)
    (h4 : stripL line = OUTPUTS_HEADING) :
    parseDocLoop attr output ex docs (fuel + 1) (line :: rest) =
      parseDocLoop attr (parseAttrLoop (leading_whitespace line) output none [] rest).1
        ex docs fuel (rest.drop (parseAttrLoop (leading_whitespace line) output none [] rest).2) := by
  simp only [parseDocLoop, h4]
  rw [if_neg (by decide), if_neg (by decide), if_pos trivial]

theorem parseDocLoop_succ_other {line : Line} (attr output : Dict) (ex docs : List Line)
    (fuel : Nat) (rest : List Line) (h1 : stripL line ≠ ARGS_HEADING)
    (h2 : stripL line ≠ EXAMPLES_HEADING) (h3 : stripL line ≠ EXAMPLE_HEADING)
    (h4 : stripL line ≠ OUTPUTS_HEADING) :
    parseDocLoop attr output ex docs (fuel + 1) (line :: rest) =
      parseDocLoop attr output ex (docs ++ [line]) fuel rest := by
  simp [parseDocLoop, h1, h2, h3, h4]

theorem parseDocLoop_foldl : ∀ (fuel : Nat) (ls : List Line) (attr output : Dict)
    (ex docs : List Line),
    ∃ us1 us2, (parseDocLoop attr output ex docs fuel ls).1 = dictFold attr us1 ∧
      (parseDocLoop attr output ex docs fuel ls).2.1 = dictFold output us2 := by
  intro fuel
  induction fuel with
  | zero =>
    intro ls attr output ex docs
    rcases ls with _ | ⟨l, rest⟩
    · exact ⟨[], [], rfl, rfl⟩
    · exact ⟨[], [], rfl, rfl⟩
  | succ fuel ih =>
    intro ls attr output ex docs
    rcases ls with _ | ⟨line, rest⟩
    · exact ⟨[], [], rfl, rfl⟩
    · by_cases h1 : stripL line = ARGS_HEADING
      · rw [parseDocLoop_succ_args attr output ex docs fuel rest h1]
        obtain ⟨usA, hA⟩ :=
          parseAttrLoop_foldl rest (leading_whitespace line) attr none []
        obtain ⟨us1, us2, H1, H2⟩ := ih _ _ output ex docs
        refine ⟨usA ++ us1, us2, ?_, H2⟩
        rw [H1, hA, dictFold_append]
      · by_cases h2 : stripL line = EXAMPLES_HEADING ∨ stripL line = EXAMPLE_HEADING
        · rw [parseDocLoop_succ_example attr output ex docs fuel rest h1 h2]
          exact ih _ attr output _ docs
        · push_neg at h2
          by_cases h4 : stripL line = OUTPUTS_HEADING
          · rw [parseDocLoop_succ_outputs attr output ex docs fuel rest h1 h2.1 h2.2 h4]
            obtain ⟨usO, hO⟩ :=
              parseAttrLoop_foldl rest (leading_whitespace line) output none []
            obtain ⟨us1, us2, H1, H2⟩ := ih _ attr _ ex docs
            refine ⟨us1, usO ++ us2, H1, ?_⟩
            rw [H2, hO, dictFold_append]
          · rw [parseDocLoop_succ_other attr output ex docs fuel rest h1 h2.1 h2.2 h4]
            exact ih _ attr output ex _

/-! ### The outer loop on heading-free input -/

theorem parseDocLoop_no_heading : ∀ (ls : List Line) (fuel : Nat) (attr output : Dict)
    (ex docs : List Line), ls.length ≤ fuel →
    (∀ l ∈ ls, stripL l ≠ ARGS_HEADING ∧ stripL l ≠ EXAMPLES_HEADING ∧
      stripL l ≠ EXAMPLE_HEADING ∧ stripL l ≠ OUTPUTS_HEADING) →
    parseDocLoop attr output ex docs fuel ls = (attr, output, ex, docs ++ ls) := by
  intro ls
  induction ls with
  | nil =>
    intro fuel attr output ex docs _ _
    rcases fuel with _ | fuel <;> simp [parseDocLoop]
  | cons line rest ih =>
    intro fuel attr output ex docs hlen hh
    rcases fuel with _ | fuel
    · simp at hlen
    · obtain ⟨h1, h2, h3, h4⟩ := hh line (List.mem_cons_self _ _)
      rw [parseDocLoop_succ_other attr output ex docs fuel rest h1 h2 h3 h4]
      rw [ih fuel attr output ex (docs ++ [line]) (by simpa using hlen)
        (fun l hl => hh l (List.mem_cons_of_mem _ hl))]
      simp

/-! ### Equality of the two dedent descriptions -/

theorem blankWsOnly_filter (ls : List Line) :
    (blankWsOnly ls).filter (fun l => l.any (fun c => !isIndentChar c)) =
      (blankWsOnly ls).filter (fun l => !l.isEmpty) := by
  apply List.filter_congr
  intro l hl
  obtain ⟨orig, _, rfl⟩ := List.mem_map.mp hl
  by_cases h : (!orig.isEmpty && orig.all isIndentChar) = true
  · simp [h]
  · simp only [h, if_false]
    rcases orig with _ | ⟨c, t⟩
    · simp
    · have hall : (c :: t).all isIndentChar = false := by
        rcases hh : (c :: t).all isIndentChar with _ | _
        · rfl
        · exact absurd (by simp [hh]) h
      have hex : ∃ x ∈ c :: t, isIndentChar x = false := by
        by_contra hab
        push_neg at hab
        have hc : (c :: t).all isIndentChar = true := by
          rw [List.all_eq_true]
          intro x hx
          rcases hxx : isIndentChar x with _ | _
          · exact absurd hxx (hab x hx)
          · rfl
        rw [hc] at hall
        cases hall
      obtain ⟨x, hx, hxf⟩ := hex
      have h1 : (c :: t).any (fun c => !isIndentChar c) = true := by
        rw [List.any_eq_true]
        exact ⟨x, hx, by simp [hxf]⟩
      have h2 : (!(c :: t).isEmpty) = true := by simp
      simp [h1, h2]

theorem pyDedent_eq_amendedDedent : ∀ ls : List Line, pyDedent ls = amendedDedent ls := by
  intro ls
  simp only [pyDedent, amendedDedent, dedentMargin, marginStep_eq_lcp, blankWsOnly_filter]
  rcases h : ((blankWsOnly ls).filter (fun l => !l.isEmpty)).map
      (fun l => l.takeWhile isIndentChar) with _ | ⟨i, rest⟩
  · rw [h]
  · rw [h]
    rcases hm : rest.foldl lcp i with _ | ⟨c, m⟩
    · simp [hm]
    · simp [hm]

/-! ### Characterization of the field-line pattern -/

theorem isAttrChar_not_space {c : Char} (h : isAttrChar c = true) : isPySpace c = false := by
  rcases hs : isPySpace c with _ | _
  · rfl
  · simp only [isPySpace, Bool.or_eq_true, beq_iff_eq] at hs
    rcases hs with ((((rfl | rfl) | rfl) | rfl) | rfl) | rfl <;>
      exact absurd h (by decide)

theorem isAttrChar_ne_dash {c : Char} (h : isAttrChar c = true) : ¬(c = '-') := by
  intro hc
  subst hc
  exact absurd h (by decide)

theorem matchField_some_iff : ∀ (line name desc : Line),
    matchField line = some (name, desc) ↔
    ∃ w1 d w2 rest, line = w1 ++ d ++ w2 ++ name ++ ':' :: rest ∧
      w1.all isPySpace = true ∧ (d = [] ∨ d = ['-']) ∧ w2.all isPySpace = true ∧
      name ≠ [] ∧ name.all isAttrChar = true ∧ desc = rest.dropWhile isPySpace := by
  intro line name desc
  constructor
  · intro h
    simp only [matchField] at h
    split at h
    case h_2 => exact absurd h (by simp)
    case h_1 c r hdw =>
      split at h
      case isFalse => exact absurd h (by simp)
      case isTrue hc =>
        obtain ⟨hne, rfl⟩ := hc
        have h' := Option.some.inj h
        rw [Prod.mk.injEq] at h'
        obtain ⟨rfl, rfl⟩ := h'
        have hline : line.takeWhile isPySpace ++ line.dropWhile isPySpace = line :=
          List.takeWhile_append_dropWhile ..
        generalize hg : line.dropWhile isPySpace = s1 at hne hdw hline ⊢
        rcases s1 with _ | ⟨c1, r1⟩
        · exact absurd hne (by simp [afterBullet])
        · by_cases hdash : c1 = '-'
          · subst hdash
            have hab : afterBullet ('-' :: r1) = r1.dropWhile isPySpace := by
              simp [afterBullet]
            rw [hab] at hne hdw ⊢
            obtain ⟨tw, htw⟩ : ∃ tw,
                (r1.dropWhile isPySpace).takeWhile isAttrChar = tw := ⟨_, rfl⟩
            rw [htw] at hne ⊢
            have hr1 : r1.takeWhile isPySpace ++ r1.dropWhile isPySpace = r1 :=
              List.takeWhile_append_dropWhile ..
            have e1 : r1.dropWhile isPySpace = tw ++ ':' :: r := by
              rw [← htw, ← hdw]
              exact (List.takeWhile_append_dropWhile ..).symm
            have e2 : r1 = r1.takeWhile isPySpace ++ (tw ++ ':' :: r) := by
              rw [← e1]
              exact hr1.symm
            have e3 : line = line.takeWhile isPySpace ++
                '-' :: (r1.takeWhile isPySpace ++ (tw ++ ':' :: r)) := by
              rw [← e2]
              exact hline.symm
            refine ⟨line.takeWhile isPySpace, ['-'], r1.takeWhile isPySpace, r,
              ?_, List.all_takeWhile .., Or.inr rfl, List.all_takeWhile .., hne,
              ?_, rfl⟩
            · conv_lhs => rw [e3]
              simp
            · rw [← htw]
              exact List.all_takeWhile ..
          · have hab : afterBullet (c1 :: r1) = c1 :: r1 := by
              simp [afterBullet, hdash]
            rw [hab] at hne hdw ⊢
            obtain ⟨tw, htw⟩ : ∃ tw, (c1 :: r1).takeWhile isAttrChar = tw := ⟨_, rfl⟩
            rw [htw] at hne ⊢
            have e1 : c1 :: r1 = tw ++ ':' :: r := by
              rw [← htw, ← hdw]
              exact (List.takeWhile_append_dropWhile ..).symm
            have e3 : line = line.takeWhile isPySpace ++ (tw ++ ':' :: r) := by
              rw [← e1]
              exact hline.symm
            refine ⟨line.takeWhile isPySpace, [], [], r, ?_, List.all_takeWhile ..,
              Or.inl rfl, by simp, hne, ?_, rfl⟩
            · conv_lhs => rw [e3]
              simp
            · rw [← htw]
              exact List.all_takeWhile ..
  · rintro ⟨w1, d, w2, rest, rfl, hw1, hd, hw2, hname, hattr, rfl⟩
    rcases name with _ | ⟨n, nt⟩
    · exact absurd rfl hname
    · simp only [List.all_cons, Bool.and_eq_true] at hattr
      obtain ⟨hn, hnt⟩ := hattr
      have hnspace : isPySpace n = false := isAttrChar_not_space hn
      have hndash : ¬(n = '-') := isAttrChar_ne_dash hn
      have hcolon : isAttrChar ':' = false := by decide
      have htail : ((n :: nt) ++ ':' :: rest).takeWhile isAttrChar = n :: nt := by
        have := takeWhile_append_of_all isAttrChar (n :: nt) (by simp [hn, hnt])
          ':' hcolon rest
        simpa using this
      have htail2 : ((n :: nt) ++ ':' :: rest).dropWhile isAttrChar = ':' :: rest := by
        have := dropWhile_append_of_all isAttrChar (n :: nt) (by simp [hn, hnt])
          ':' hcolon rest
        simpa using this
      rcases hd with rfl | rfl
      · have hdrop : (w1 ++ [] ++ w2 ++ (n :: nt) ++ ':' :: rest).dropWhile isPySpace =
            (n :: nt) ++ ':' :: rest := by
          have hall : (w1 ++ w2).all isPySpace = true := by
            simp [List.all_append, hw1, hw2]
          have := dropWhile_append_of_all isPySpace (w1 ++ w2) hall
            n hnspace (nt ++ ':' :: rest)
          simpa [List.append_assoc] using this
        have hab : afterBullet ((n :: nt) ++ ':' :: rest) = (n :: nt) ++ ':' :: rest := by
          simp [afterBullet, hndash]
        simp only [matchField, hdrop, hab, htail, htail2]
        simp
      · have hdrop : (w1 ++ ['-'] ++ w2 ++ (n :: nt) ++ ':' :: rest).dropWhile isPySpace =
            '-' :: (w2 ++ (n :: nt) ++ ':' :: rest) := by
          have := dropWhile_append_of_all isPySpace w1 hw1
            '-' (by decide) (w2 ++ (n :: nt) ++ ':' :: rest)
          simpa [List.append_assoc] using this
        have hdrop2 : (w2 ++ (n :: nt) ++ ':' :: rest).dropWhile isPySpace =
            (n :: nt) ++ ':' :: rest := by
          have := dropWhile_append_of_all isPySpace w2 hw2
            n hnspace (nt ++ ':' :: rest)
          simpa [List.append_assoc] using this
        have hab : afterBullet ('-' :: (w2 ++ (n :: nt) ++ ':' :: rest)) =
            (n :: nt) ++ ':' :: rest := by
          simp only [afterBullet, if_pos rfl]
          simpa [List.append_assoc] using hdrop2
        simp only [matchField, hdrop, hab, htail, htail2]
        simp

/-! ### Claim theorems -/

/-- Claim C1, counterexample: when a field description contains a quote
character, the stored value keeps the quote unchanged; only `&`, `<`, `>`
are replaced.  The claim's escaping (quotes replaced by entities) gives a
different value. -/
theorem c1_counterexample :
    (parse_docstring ("Args:\n  a: say \"hi\" & <b>".toList)).attr_docs =
      [("a".toList, "say \"hi\" &amp; &lt;b&gt;".toList)] ∧
    claimEscape ("say \"hi\" & <b>".toList) =
      "say &quot;hi&quot; &amp; &lt;b&gt;".toList ∧
    ("say \"hi\" &amp; &lt;b&gt;".toList : Line) ≠
      "say &quot;hi&quot; &amp; &lt;b&gt;".toList := by
  exact ⟨by decide, by decide, by decide⟩

/-- Claim C1 as amended: for every field-section parse, the mapping
produced from an initial mapping of escaped values is exactly the raw
parse with `xml.sax.saxutils.escape` applied to every value — so each
stored value is the escape of its raw accumulated description — and that
escape rewrites only `&`, `<`, `>`, leaving every other character (both
quote characters in particular) unchanged. -/
theorem c1_theorem :
    (∀ (hws : Nat) (m : Dict) (attr : Option Line) (desc : Line) (tail : List Line),
      (parseAttrLoop hws (mapVals pyEscape m) attr desc tail).1 =
        mapVals pyEscape ((rawAttrLoop hws m attr desc tail).1)) ∧
    (∀ c : Char, c ≠ '&' → c ≠ '<' → c ≠ '>' → escapeChar c = [c]) ∧
    (∀ s : Line, (pyEscape s).count '"' = s.count '"' ∧
      (pyEscape s).count '\u0027' = s.count '\u0027') := by
  refine ⟨?_, ?_, pyEscape_count_quote⟩
  · intro hws m attr desc tail
    exact parseAttrLoop_escape_sim tail hws m attr desc
  · intro c h1 h2 h3
    simp [escapeChar, h1, h2, h3]

/-- Claim C1 witness: the amended theorem applied at a concrete parse and
at the quote character. -/
theorem c1_witness :
    (parseAttrLoop 0 (mapVals pyEscape []) none [] ["  a: x".toList]).1 =
      mapVals pyEscape ((rawAttrLoop 0 [] none [] ["  a: x".toList]).1) ∧
    escapeChar '"' = ['"'] :=
  ⟨c1_theorem.1 0 [] none [] ["  a: x".toList],
   c1_theorem.2.1 '"' (by decide) (by decide) (by decide)⟩

/-- Claim C2, counterexample: a non-blank line strictly LESS indented than
the heading does not stop the section: with heading `"  Args:"` (indent 2)
and following line `"x"` (indent 0), both parsers consume the line and
resume at index 2, not at index 1 as the ≤ reading of the claim requires. -/
theorem c2_counterexample :
    stripL ("x".toList) ≠ [] ∧
    leading_whitespace ("x".toList) ≤ leading_whitespace ("  Args:".toList) ∧
    (parse_attribute_docs [] ["  Args:".toList, "x".toList] 0).2 = 2 ∧
    (parse_attribute_docs [] ["  Args:".toList, "x".toList] 0).2 ≠ 1 ∧
    (parse_example_docs [] ["  Example:".toList, "x".toList] 0).2 = 2 ∧
    (parse_example_docs [] ["  Example:".toList, "x".toList] 0).2 ≠ 1 := by decide

/-- Claim C2 as amended: both the field-section parser and the
example-block collector stop at the first subsequent line that is
non-blank and whose leading-whitespace width is EQUAL to the heading
line's leading-whitespace width, and that stopping line is not consumed:
the number of consumed lines is the index of the first such line, and the
returned resume index is `index + 1` plus that count. -/
theorem c2_theorem :
    (∀ (hws : Nat) (docs : Dict) (attr : Option Line) (desc : Line) (tail : List Line),
      (parseAttrLoop hws docs attr desc tail).2 = tail.findIdx (stopsSection hws)) ∧
    (∀ (hws : Nat) (tail : List Line),
      (parseExLoop hws tail).2 = tail.findIdx (stopsSection hws)) ∧
    (∀ (m : Dict) (lines : List Line) (index : Nat),
      (parse_attribute_docs m lines index).2 = index + 1 +
        (lines.drop (index + 1)).findIdx
          (stopsSection (leading_whitespace (lines.getD index [])))) ∧
    (∀ (ex : List Line) (lines : List Line) (index : Nat),
      (parse_example_docs ex lines index).2 = index + 1 +
        (lines.drop (index + 1)).findIdx
          (stopsSection (leading_whitespace (lines.getD index [])))) := by
  refine ⟨fun hws docs attr desc tail => parseAttrLoop_consumed tail hws docs attr desc,
    fun hws tail => parseExLoop_consumed tail hws, ?_, ?_⟩
  · intro m lines index
    simp [parse_attribute_docs, parseAttrLoop_consumed]
  · intro ex lines index
    simp [parse_example_docs, parseExLoop_consumed]

/-- Claim C3, counterexample: inside an Args section, the prose line
`"  Note: not a field."` is captured as a field named `Note`, because a
single identifier token immediately followed by a colon matches the field
pattern even in running prose. -/
theorem c3_counterexample :
    (parse_docstring ("Args:\n  name: the name.\n  Note: not a field.".toList)).attr_docs =
      [("name".toList, "the name.".toList), ("Note".toList, "not a field.".toList)] ∧
    "Note".toList ∈ dictKeys
      (parse_docstring ("Args:\n  name: the name.\n  Note: not a field.".toList)).attr_docs := by
  exact ⟨by decide, by decide⟩

/-- Claim C3 as amended: a line whose trimmed text is not exactly one of
the four reserved heading tokens never opens a section (the outer loop
treats it as prose), and inside an Args/Outputs section every key added to
the mapping comes from a line that matches the field pattern — but a prose
line that does match the pattern (a single identifier token immediately
followed by a colon, such as `"Note: ..."`) IS captured as a field. -/
theorem c3_theorem :
    (∀ (attr output : Dict) (ex docs : List Line) (fuel : Nat) (line : Line)
      (rest : List Line), stripL line ≠ ARGS_HEADING → stripL line ≠ EXAMPLES_HEADING →
      stripL line ≠ EXAMPLE_HEADING → stripL line ≠ OUTPUTS_HEADING →
      parseDocLoop attr output ex docs (fuel + 1) (line :: rest) =
        parseDocLoop attr output ex (docs ++ [line]) fuel rest) ∧
    (∀ (tail : List Line) (hws : Nat) (docs : Dict) (attr : Option Line) (desc : Line)
      (k : Line), k ∈ dictKeys (parseAttrLoop hws docs attr desc tail).1 →
      k ∈ dictKeys docs ∨ attr = some k ∨ ∃ l ∈ tail, ∃ d, matchField l = some (k, d)) :=
  ⟨fun attr output ex docs fuel line rest h1 h2 h3 h4 =>
    parseDocLoop_succ_other attr output ex docs fuel rest h1 h2 h3 h4,
   fun tail hws docs attr desc k h => parseAttrLoop_keys tail hws docs attr desc k h⟩

/-- Claim C3 witness: the amended theorem applied at the near-heading line
`"Foo:"` and at a concrete one-field section. -/
theorem c3_witness :
    parseDocLoop [] [] [] [] 1 ["Foo:".toList] =
      parseDocLoop [] [] [] ["Foo:".toList] 0 [] ∧
    ("name".toList ∈ dictKeys ([] : Dict) ∨ (none : Option Line) = some ("name".toList) ∨
      ∃ l ∈ ["  name: x".toList], ∃ d, matchField l = some ("name".toList, d)) :=
  ⟨c3_theorem.1 [] [] [] [] 0 ("Foo:".toList) [] (by decide) (by decide) (by decide)
      (by decide),
   c3_theorem.2 ["  name: x".toList] 0 [] none [] ("name".toList) (by decide)⟩

/-- Claim C4: for every input in which no line's trimmed content equals one
of the reserved headings, `parse_docstring` returns the stripped input as
`doc` and empty `attr_docs`, `example_doc` and `output_docs`. -/
theorem c4_theorem (s : Line)
    (h : ∀ l ∈ splitLines s, stripL l ≠ ARGS_HEADING ∧ stripL l ≠ EXAMPLES_HEADING ∧
      stripL l ≠ EXAMPLE_HEADING ∧ stripL l ≠ OUTPUTS_HEADING) :
    parse_docstring s = ⟨stripL s, [], [], []⟩ := by
  have hloop := parseDocLoop_no_heading (splitLines s) (splitLines s).length [] [] [] []
    (Nat.le_refl _) h
  have hex : stripL (joinLines (pyDedent ([] : List Line))) = [] := by decide
  simp [parse_docstring, hloop, joinLines_splitLines, hex]

/-- Claim C4 witness: a near-heading line `"Foo:"` and everything after it
remain ordinary prose. -/
theorem c4_witness :
    parse_docstring ("abc\nFoo:\n  x: y".toList) =
      ⟨stripL ("abc\nFoo:\n  x: y".toList), [], [], []⟩ :=
  c4_theorem ("abc\nFoo:\n  x: y".toList) (by decide)

/-- Claim C5: a blank line never triggers the section-stop condition, and
a line that matches no field pattern while a field is open is appended to
the open description as a newline followed by the line's trimmed text;
end to end, `"Args:\n  name: A.\n\n  more."` yields
`attr_docs["name"] = "A.\n\nmore."`. -/
theorem c5_theorem :
    (∀ (hws : Nat) (line : Line), stripL line = [] → stopsSection hws line = false) ∧
    (∀ (hws : Nat) (docs : Dict) (a desc line : Line) (rest : List Line),
      stopsSection hws line = false → matchField line = none →
      parseAttrLoop hws docs (some a) desc (line :: rest) =
        ((parseAttrLoop hws docs (some a) (desc ++ '\n' :: stripL line) rest).1,
         (parseAttrLoop hws docs (some a) (desc ++ '\n' :: stripL line) rest).2 + 1)) ∧
    (parse_docstring ("Args:\n  name: A.\n\n  more.".toList)).attr_docs =
      [("name".toList, "A.\n\nmore.".toList)] := by
  refine ⟨fun hws line h => stopsSection_of_blank h,
    fun hws docs a desc line rest hs hm =>
      parseAttrLoop_cons_cont_some docs a desc rest hs hm, by decide⟩

/-- Claim C5 witness: the theorem applied at a blank line with an open
field. -/
theorem c5_witness :
    stopsSection 0 ("  ".toList) = false ∧
    parseAttrLoop 0 [] (some ("n".toList)) ("A.".toList) ([] :: []) =
      ((parseAttrLoop 0 [] (some ("n".toList)) ("A.".toList ++ '\n' :: stripL []) []).1,
       (parseAttrLoop 0 [] (some ("n".toList)) ("A.".toList ++ '\n' :: stripL []) []).2 + 1) :=
  ⟨c5_theorem.1 0 ("  ".toList) (by decide),
   c5_theorem.2.1 0 [] ("n".toList) ("A.".toList) [] [] (by decide) (by decide)⟩

/-- Claim C6: dict assignment appends a fresh key at the end, keeps the
position of an existing key while updating its value (last-wins); both
result mappings of every parse are folds of such assignments starting from
the empty mapping; end to end, a duplicated field name keeps its
first-appearance position with the later value. -/
theorem c6_theorem :
    (∀ (m : Dict) (k v : Line), k ∉ dictKeys m →
      dictKeys (dictInsert m k v) = dictKeys m ++ [k]) ∧
    (∀ (m : Dict) (k v : Line), k ∈ dictKeys m →
      dictKeys (dictInsert m k v) = dictKeys m) ∧
    (∀ (m : Dict) (k v : Line), dictGet (dictInsert m k v) k = some v) ∧
    (∀ doc : Line, ∃ us1 us2,
      (parse_docstring doc).attr_docs = dictFold [] us1 ∧
      (parse_docstring doc).output_docs = dictFold [] us2) ∧
    (parse_docstring ("Args:\n  a: one\n  b: two\n  a: three".toList)).attr_docs =
      [("a".toList, "three".toList), ("b".toList, "two".toList)] := by
  refine ⟨fun m k v h => dictKeys_insert_of_not_mem v h,
    fun m k v h => dictKeys_insert_of_mem v h,
    fun m k v => dictGet_insert_self m k v, ?_, by decide⟩
  intro doc
  obtain ⟨us1, us2, h1, h2⟩ := parseDocLoop_foldl (splitLines doc).length (splitLines doc)
    [] [] [] []
  exact ⟨us1, us2, h1, h2⟩

/-- Claim C6 witness: the dict-assignment clauses applied at concrete
mappings. -/
theorem c6_witness :
    dictKeys (dictInsert [] ("a".toList) ("x".toList)) = dictKeys ([] : Dict) ++ ["a".toList] ∧
    dictKeys (dictInsert [(("a".toList), ("x".toList))] ("a".toList) ("y".toList)) =
      dictKeys [(("a".toList), ("x".toList))] ∧
    dictGet (dictInsert [(("a".toList), ("x".toList))] ("a".toList) ("y".toList))
      ("a".toList) = some ("y".toList) :=
  ⟨c6_theorem.1 [] ("a".toList) ("x".toList) (by decide),
   c6_theorem.2.1 [(("a".toList), ("x".toList))] ("a".toList) ("y".toList) (by decide),
   c6_theorem.2.2.1 [(("a".toList), ("x".toList))] ("a".toList) ("y".toList)⟩

/-- Claim C7, counterexample: with example lines `"  a"`, `"    "`, `"  b"`
(collected exactly so), `textwrap.dedent` empties the whitespace-only
middle line, so the code yields `"a\n\nb"`, while removing only the common
prefix of all non-empty lines as the claim describes would leave `"a\n  \nb"`. -/
theorem c7_counterexample :
    (parse_example_docs [] (splitLines ("Example:\n  a\n    \n  b".toList)) 0).1 =
      ["  a".toList, "    ".toList, "  b".toList] ∧
    (parse_docstring ("Example:\n  a\n    \n  b".toList)).example_doc = "a\n\nb".toList ∧
    stripL (joinLines (claimDedent ["  a".toList, "    ".toList, "  b".toList])) =
      "a\n  \nb".toList ∧
    ("a\n\nb".toList : Line) ≠ "a\n  \nb".toList := by
  exact ⟨by decide, by decide, by decide, by decide⟩

/-- Claim C7 as amended: the collected example lines are dedented by
first normalizing whitespace-only lines to empty lines, then removing the
longest space/tab prefix common to the lines that contain a non-whitespace
character (preserving relative indentation), and the joined result is
stripped; end to end, nested indentation deeper than the common prefix is
preserved. -/
theorem c7_theorem :
    (∀ ls : List Line, pyDedent ls = amendedDedent ls) ∧
    (parse_docstring ("Examples:\n  code:\n      nested\n".toList)).example_doc =
      "code:\n    nested".toList :=
  ⟨pyDedent_eq_amendedDedent, by decide⟩

/-- Claim C8: a line begins a new field exactly when it consists of
optional leading whitespace, an optional dash bullet, a non-empty
identifier of word/backtick/brace/percent/dot characters immediately
followed by a colon, with the rest of the line (leading whitespace
dropped) as the initial description; `"%{name}.jar: A Java archive."` is
recognized with name `%{name}.jar`. -/
theorem c8_theorem :
    (∀ (line name desc : Line), matchField line = some (name, desc) ↔
      ∃ w1 d w2 rest, line = w1 ++ d ++ w2 ++ name ++ ':' :: rest ∧
        w1.all isPySpace = true ∧ (d = [] ∨ d = ['-']) ∧ w2.all isPySpace = true ∧
        name ≠ [] ∧ name.all isAttrChar = true ∧ desc = rest.dropWhile isPySpace) ∧
    matchField ("%{name}.jar: A Java archive.".toList) =
      some ("%{name}.jar".toList, "A Java archive.".toList) :=
  ⟨matchField_some_iff, by decide⟩

/-- Claim C9: parsing is total (every input yields an `ExtractedDocs`);
a field section none of whose lines matches the field pattern leaves the
mapping unchanged (lines silently discarded); a heading as last line
yields empty mappings; prose between the heading and the first field line
is discarded. -/
theorem c9_theorem :
    (∀ (hws : Nat) (m : Dict) (tail : List Line), (∀ l ∈ tail, matchField l = none) →
      (parseAttrLoop hws m none [] tail).1 = m) ∧
    (∀ doc : Line, ∃ r : ExtractedDocs, parse_docstring doc = r) ∧
    parse_docstring ("x\nArgs:".toList) = ⟨"x".toList, [], [], []⟩ ∧
    (parse_docstring ("Args:\n  junk prose\n  a: val".toList)).attr_docs =
      [("a".toList, "val".toList)] ∧
    (parse_docstring ("Args:\n  junk prose\n  a: val".toList)).doc = [] := by
  refine ⟨fun hws m tail h => parseAttrLoop_no_match tail hws m h,
    fun doc => ⟨parse_docstring doc, rfl⟩, by decide, by decide, by decide⟩

/-- Claim C9 witness: a section of non-matching lines leaves a concrete
mapping unchanged. -/
theorem c9_witness :
    (parseAttrLoop 0 [(("k".toList), ("v".toList))] none []
      ["  just prose".toList, [] ]).1 = [(("k".toList), ("v".toList))] :=
  c9_theorem.1 0 [(("k".toList), ("v".toList))] ["  just prose".toList, []]
    (by decide)

/-- Claim C10: a field finalized because a following line starts a new
field is stored escaped but NOT stripped, while the field still open at
section end (or end of input) is stored escaped and stripped; end to end,
the non-final field `a` keeps the trailing newline accumulated from the
blank line before `b`. -/
theorem c10_theorem :
    (∀ (hws : Nat) (docs : Dict) (a desc line : Line) (rest : List Line)
      (name d : Line), stopsSection hws line = false →
      matchField line = some (name, d) →
      (parseAttrLoop hws docs (some a) desc (line :: rest)).1 =
        (parseAttrLoop hws (dictInsert docs a (pyEscape desc)) (some name) d rest).1) ∧
    (∀ (hws : Nat) (docs : Dict) (a desc : Line),
      parseAttrLoop hws docs (some a) desc [] =
        (dictInsert docs a (stripL (pyEscape desc)), 0)) ∧
    (∀ (hws : Nat) (docs : Dict) (a desc line : Line) (rest : List Line),
      stopsSection hws line = true →
      parseAttrLoop hws docs (some a) desc (line :: rest) =
        (dictInsert docs a (stripL (pyEscape desc)), 0)) ∧
    (parse_docstring ("Args:\n  a: A\n\n  b: B\n".toList)).attr_docs =
      [("a".toList, "A\n".toList), ("b".toList, "B".toList)] := by
  refine ⟨?_, ?_, ?_, by decide⟩
  · intro hws docs a desc line rest name d hs hm
    rw [parseAttrLoop_cons_match_some docs a desc rest hs hm]
  · intro hws docs a desc
    rfl
  · intro hws docs a desc line rest hs
    rw [parseAttrLoop_cons_stop docs (some a) desc rest hs]
    rfl

/-- Claim C10 witness: the theorem applied at a concrete mid-section field
line, at the end of input, and at a concrete stopping line. -/
theorem c10_witness :
    (parseAttrLoop 0 [] (some ("a".toList)) ("A".toList) ["  b: B".toList]).1 =
      (parseAttrLoop 0 (dictInsert [] ("a".toList) (pyEscape ("A".toList)))
        (some ("b".toList)) ("B".toList) []).1 ∧
    parseAttrLoop 0 [] (some ("a".toList)) ("A ".toList) [] =
      (dictInsert [] ("a".toList) (stripL (pyEscape ("A ".toList))), 0) ∧
    parseAttrLoop 0 [] (some ("a".toList)) ("A".toList) ["end".toList] =
      (dictInsert [] ("a".toList) (stripL (pyEscape ("A".toList))), 0) :=
  ⟨c10_theorem.1 0 [] ("a".toList) ("A".toList) ("  b: B".toList) [] ("b".toList)
      ("B".toList) (by decide) (by decide),
   c10_theorem.2.1 0 [] ("a".toList) ("A ".toList),
   c10_theorem.2.2.1 0 [] ("a".toList) ("A".toList) ("end".toList) [] (by decide)⟩

end Skydoc
